import Mathlib

/-!
Verification of the resumable function-calling evaluation runner
(`openfunctions_evaluation.py` together with `model_handler/handler.py`).

The embedding below translates the runner's data model and operations into
Lean definitions:

* file system state is explicit (`FS`): a map from result-file names to the
  list of JSON lines already appended, plus the set of directories created so
  far, for one fixed `(language, model)` pair (the runner only ever touches
  the directory `./result/{language}/{model_dir}` during one run);
* the model handler's `inference` method is an explicit function from its
  arguments plus an attempt index to either a result with usage metadata or a
  raised error (the attempt index models the external nondeterminism of
  repeated calls to the same provider);
* records written to disk are association lists of string keys and JSON
  values, exactly the dict literals built by the Python code (the opaque
  result payload is a type parameter, token counts and the latency payload
  are carried as numbers — the runner never computes with them);
* raised exceptions become `Except` / explicit error sums.
-/

deriving instance DecidableEq for Except

/-- Models Python's `s.rsplit("_", 1)` on the character list of `s`: returns
the characters strictly before the last underscore if an underscore occurs,
and `none` otherwise. -/
def rsplitAux : List Char → Option (List Char)
  | [] => none
  | c :: rest =>
    match rsplitAux rest with
    | some t => some (c :: t)
    | none => if c = '_' then some [] else none

/-- Models `test_case["id"].rsplit("_", 1)[0]` (used at
`openfunctions_evaluation.py` line 112 and `handler.py` line 35): everything
before the final underscore of the id, or the whole id when it has no
underscore. -/
def categoryOfId (s : String) : String :=
  match rsplitAux s.data with
  | some t => String.mk t
  | none => s

/-- A character-list version of Python's substring containment test
`needle in hay`: does `needle` start at the head of `hay`? -/
def startsWithL : List Char → List Char → Bool
  | [], _ => true
  | _ :: _, [] => false
  | a :: as, b :: bs => a == b && startsWithL as bs

/-- Python's `needle in hay` substring test, scanning every suffix. -/
def containsSub (needle : List Char) : List Char → Bool
  | [] => needle.isEmpty
  | c :: rest => startsWithL needle (c :: rest) || containsSub needle rest

/-- A JSON value as far as the runner itself inspects one: a string, a
number, or the opaque model-output payload (type parameter `α`). -/
inductive JVal (α : Type) where
  | str (s : String)
  | nat (n : Nat)
  | payload (p : α)
  deriving DecidableEq

/-- A JSON object (Python dict) as the runner builds them: an ordered list of
key/value pairs. -/
abbrev JObj (α : Type) := List (String × JVal α)

/-- Python `o[k]` lookup on a dict modelled as an association list. -/
def lookupKey {α : Type} (o : JObj α) (k : String) : Option (JVal α) :=
  (o.find? (fun p => p.1 == k)).map (fun p => p.2)

/-- `entry["id"]` as used by `BaseHandler.write` (`handler.py` line 35):
the value must be present and must be a string. -/
def recId {α : Type} (o : JObj α) : Option String :=
  match lookupKey o "id" with
  | some (JVal.str s) => some s
  | _ => none

/-- Usage metadata returned by an interactive-mode `handler.inference` call
(the `metadata` dict of `openfunctions_evaluation.py` lines 145-147). The
latency payload is opaque to the runner; it is carried here as a number. -/
structure Metadata where
  input_tokens : Nat
  output_tokens : Nat
  latency : Nat
  deriving DecidableEq

/-- An exception raised by a handler, as far as the retry loop inspects it
(`openfunctions_evaluation.py` lines 128-135): its string form and an
optional `status_code` attribute (`none` models `hasattr` being false). -/
structure ApiError where
  msg : String
  status_code : Option Int
  deriving DecidableEq

/-- `RETRY_LIMIT = 3` (`openfunctions_evaluation.py` line 90). -/
def RETRY_LIMIT : Nat := 3

/-- `RETRY_DELAY = 65` seconds (`openfunctions_evaluation.py` line 92). -/
def RETRY_DELAY : Nat := 65

/-- Python's `s.lower()` on the character list of `s` (the error messages
the runner inspects are ASCII, where the two agree). -/
def lowerStr (s : String) : List Char := s.data.map Char.toLower

/-- The retry loop's transient/fatal classification
(`openfunctions_evaluation.py` lines 128-135): transient iff
`"rate limit reached" in str(e).lower()` or the error has a `status_code`
attribute equal to 429, 503 or 500. -/
def isTransientError (e : ApiError) : Bool :=
  containsSub "rate limit reached".data (lowerStr e.msg) ||
    (match e.status_code with
     | some c => c == 429 || c == 503 || c == 500
     | none => false)

/-- Outcome of one `handler.inference` attempt: a result with metadata, or a
raised exception. -/
inductive AttemptOut (α : Type) where
  | ok (r : α) (m : Metadata)
  | err (e : ApiError)
  deriving DecidableEq

/-- How the `while retry_count < RETRY_LIMIT` loop
(`openfunctions_evaluation.py` lines 119-141) terminates, counting the
`time.sleep(RETRY_DELAY)` calls it performed: `success` = the `break` at
line 124, `fatal` = the `raise e` at line 141, `exhausted` = the loop
condition becoming false after the limit was reached, which the code does
not treat as an error. -/
inductive LoopOut (α : Type) where
  | success (r : α) (m : Metadata) (sleeps : Nat)
  | fatal (e : ApiError) (sleeps : Nat)
  | exhausted (sleeps : Nat)
  deriving DecidableEq

/-- Account for one more `time.sleep(RETRY_DELAY)` before the given loop
outcome. -/
def addSleep {α : Type} : LoopOut α → LoopOut α
  | .success r m s => .success r m (s + 1)
  | .fatal e s => .fatal e (s + 1)
  | .exhausted s => .exhausted (s + 1)

/-- The retry loop of `openfunctions_evaluation.py` lines 119-141,
implemented by structural recursion on the number of loop iterations still
allowed (`limit - count` for the loop started at `retry_count = count`):
with no iterations left the loop condition is false and the loop falls
through; otherwise make the attempt; on success break; on a transient error
sleep once and continue with `count + 1`; on any other error re-raise
immediately. -/
def retryLoop {α : Type} (attempt : Nat → AttemptOut α) (count : Nat) :
    Nat → LoopOut α
  | 0 => .exhausted 0
  | fuel + 1 =>
    match attempt count with
    | .ok r m => .success r m 0
    | .err e =>
      if isTransientError e then addSleep (retryLoop attempt (count + 1) fuel)
      else .fatal e 0

/-- The `while retry_count < RETRY_LIMIT` loop started at
`retry_count = count`. -/
def retryFrom {α : Type} (attempt : Nat → AttemptOut α) (limit count : Nat) :
    LoopOut α :=
  retryLoop attempt count (limit - count)

/-- One unfolding of the retry loop: this is lines 119-141 exactly as
written — the loop guard, the attempt, the `break`, the classified sleep,
and the re-raise. -/
theorem retryFrom_eq {α : Type} (attempt : Nat → AttemptOut α) (limit count : Nat) :
    retryFrom attempt limit count =
      if count < limit then
        match attempt count with
        | .ok r m => .success r m 0
        | .err e =>
          if isTransientError e then addSleep (retryFrom attempt limit (count + 1))
          else .fatal e 0
      else .exhausted 0 := by
  by_cases h : count < limit
  · have hf : limit - count = (limit - (count + 1)) + 1 := by omega
    rw [retryFrom, hf, retryLoop, if_pos h, retryFrom]
  · have hf : limit - count = 0 := by omega
    rw [retryFrom, hf, retryLoop, if_neg h]

/-- One function-signature descriptor: a mapping (opaque) or a raw string. -/
inductive FuncVal (α : Type) where
  | obj (d : α)
  | str (s : String)
  deriving DecidableEq

/-- The `function` field of a test case as loaded from the data file: a
single dict, a single string, or already a list. -/
inductive FuncField (α : Type) where
  | obj (d : α)
  | str (s : String)
  | seq (l : List (FuncVal α))
  deriving DecidableEq

/-- A test case as the runner reads it: `id`, `question`, `function`
(question type `Q` is opaque to the runner). -/
structure TestCase (α Q : Type) where
  id : String
  question : Q
  function : FuncField α
  deriving DecidableEq

/-- Lines 114-115 of `openfunctions_evaluation.py`:
`if type(functions) is dict or type(functions) is str: functions = [functions]`. -/
def normalizeFunctions {α : Type} : FuncField α → List (FuncVal α)
  | .obj d => [.obj d]
  | .str s => [.str s]
  | .seq l => l

/-- The triple `(user_question, functions, test_category)` actually passed to
`handler.inference` for a test case (`openfunctions_evaluation.py`
lines 109-115 and 121-123). -/
def adapterArgs {α Q : Type} (tc : TestCase α Q) : Q × List (FuncVal α) × String :=
  (tc.question, normalizeFunctions tc.function, categoryOfId tc.id)

/-- An interactive-mode handler: `inference(question, functions, category)`,
with an extra attempt index modelling the differing outcomes of repeated
calls. -/
abbrev Inference (α Q : Type) := Q → List (FuncVal α) → String → Nat → AttemptOut α

/-- How a run can abort: a handler exception re-raised by the retry loop, the
`UnboundLocalError` hit when `result` is read without ever being assigned,
or a `KeyError` from a record without a string `"id"`. -/
inductive RunError where
  | raised (e : ApiError)
  | unboundLocal
  | keyError
  deriving DecidableEq

/-- The `result_to_write` dict of `openfunctions_evaluation.py`
lines 142-148. -/
def interactiveRecord {α : Type} (id : String) (r : α) (m : Metadata) : JObj α :=
  [("id", JVal.str id), ("result", JVal.payload r),
   ("input_token_count", JVal.nat m.input_tokens),
   ("output_token_count", JVal.nat m.output_tokens),
   ("latency", JVal.nat m.latency)]

/-- The `result_to_write` dict of the batch-native (OSS) branch,
`openfunctions_evaluation.py` line 103: only `id` and `result`. -/
def batchRecord {α : Type} (id : String) (r : α) : JObj α :=
  [("id", JVal.str id), ("result", JVal.payload r)]

/-- The body of the `for test_case in tqdm(...)` loop for one test case
(`openfunctions_evaluation.py` lines 107-148), up to and including building
`result_to_write`. `prev` is the value of the function-local variables
`result, metadata` left over from the previous loop iteration (`none` if
they were never assigned in this `generate_results` call). On `exhausted`
the code falls through the loop without raising and reads `result` and
`metadata`: with `prev = some (r, m)` this silently writes the previous
case's data under the current case's id; with `prev = none` it raises
`UnboundLocalError`. Returns the record together with the new value of
`result, metadata`. -/
def processCase {α Q : Type} (inf : Inference α Q) (prev : Option (α × Metadata))
    (tc : TestCase α Q) : Except RunError (JObj α × (α × Metadata)) :=
  let a := adapterArgs tc
  match retryFrom (fun n => inf a.1 a.2.1 a.2.2 n) RETRY_LIMIT 0 with
  | .success r m _ => .ok (interactiveRecord tc.id r m, (r, m))
  | .fatal e _ => .error (.raised e)
  | .exhausted _ =>
    match prev with
    | some (r, m) => .ok (interactiveRecord tc.id r m, (r, m))
    | none => .error .unboundLocal

/-- The result directory of the fixed `(language, model)` pair, plus the
lines of every result file under it, keyed by file name (a file that was
never written has the empty line list, matching `os.path.exists` returning
false and a line count of 0). -/
structure FS (α : Type) where
  dirs : List String
  files : String → List (JObj α)

/-- A file system with no result directory and no result file. -/
def emptyFS {α : Type} : FS α := { dirs := [], files := fun _ => [] }

/-- The result-file name `handler.py` line 36 builds for a category; it is
also what `file_to_open.replace(".json", "_result.json")` produces at
`openfunctions_evaluation.py` lines 74 and 80 for every entry of
`TEST_FILE_MAPPING` (each data-file name there is
`"gorilla_openfunctions_v1_test_" ++ category ++ ".json"`, and `".json"`
occurs in it exactly once). -/
def fileFor (cat : String) : String :=
  "gorilla_openfunctions_v1_test_" ++ cat ++ "_result.json"

/-- `os.makedirs(dir, exist_ok=True)`. -/
def makedirs {α : Type} (d : String) (fs : FS α) : FS α :=
  if d ∈ fs.dirs then fs else { fs with dirs := d :: fs.dirs }

/-- Appending one JSON line to a result file opened with `"a+"`
(`handler.py` lines 38-39). -/
def appendLine {α : Type} (f : String) (e : JObj α) (fs : FS α) : FS α :=
  { fs with files := fun g => if g = f then fs.files g ++ [e] else fs.files g }

/-- The `for entry in result` loop of `BaseHandler.write` (`handler.py`
lines 34-39): route each entry to the file named by the entry's own id
prefix and append it. -/
def writeEntries {α : Type} (entries : List (JObj α)) (fs : FS α) :
    Except RunError (FS α) :=
  match entries with
  | [] => .ok fs
  | e :: rest =>
    match recId e with
    | some id => writeEntries rest (appendLine (fileFor (categoryOfId id)) e fs)
    | none => .error .keyError

/-- `BaseHandler.write(result, language)` (`handler.py` lines 27-39): create
the model's result directory if absent, wrap a single dict into a
one-element list, then append every entry to the file named by that entry's
id prefix. -/
def write {α : Type} (modelDir : String) (res : JObj α ⊕ List (JObj α)) (fs : FS α) :
    Except RunError (FS α) :=
  let entries := match res with | .inl d => [d] | .inr l => l
  writeEntries entries (makedirs modelDir fs)

/-- The interactive branch of `generate_results`
(`openfunctions_evaluation.py` lines 106-149): process the pending cases in
order, writing each produced record via `handler.write` before moving to the
next case; a raised error aborts the whole run, leaving the file system as
it was after the last completed case. -/
def runInteractive {α Q : Type} (inf : Inference α Q) (modelDir : String)
    (prev : Option (α × Metadata)) (cases : List (TestCase α Q)) (fs : FS α) :
    FS α × Option RunError :=
  match cases with
  | [] => (fs, none)
  | tc :: rest =>
    match processCase inf prev tc with
    | .error err => (fs, some err)
    | .ok x =>
      match write modelDir (.inl x.1) fs with
      | .error err => (fs, some err)
      | .ok fs1 => runInteractive inf modelDir (some x.2) rest fs1

/-- The line-counting loop of `collect_test_cases`
(`openfunctions_evaluation.py` lines 69-83): `num_existing_result` is
incremented once per line of the existing result file, whatever the line
contains. -/
def num_existing_result {α : Type} (lines : List (JObj α)) : Nat :=
  lines.foldl (fun n _ => n + 1) 0

/-- `collect_test_cases` (`openfunctions_evaluation.py` lines 61-86) for the
fixed model: for each requested category (equivalently, each data file:
categories and data-file names are in bijection), load its ordered case list
(`casesOf`), drop as many leading cases as the result file has lines, and
concatenate the remainders in iteration order. -/
def collect_test_cases {α Q : Type} (casesOf : String → List (TestCase α Q))
    (cats : List String) (fs : FS α) : List (TestCase α Q) :=
  match cats with
  | [] => []
  | c :: rest =>
    (casesOf c).drop (num_existing_result (fs.files (fileFor c)))
      ++ collect_test_cases casesOf rest fs

/-- One iteration of the `for model_name in args.model` loop of `__main__`
(`openfunctions_evaluation.py` lines 164-175) for one model in interactive
mode: make the result directory, collect the pending cases, and run
`generate_results` unless nothing is pending. -/
def mainRunOnce {α Q : Type} (inf : Inference α Q)
    (casesOf : String → List (TestCase α Q)) (cats : List String)
    (modelDir : String) (fs : FS α) : FS α × Option RunError :=
  let fs1 := makedirs modelDir fs
  let pending := collect_test_cases casesOf cats fs1
  if pending.length = 0 then (fs1, none)
  else runInteractive inf modelDir none pending fs1

/-- A sequence of separate interactive-mode process invocations over the same
benchmark data, each resuming from the file system the previous one left
behind (errors abort that run but the next invocation starts fresh). -/
def runsFold {α Q : Type} (runs : List (Inference α Q))
    (casesOf : String → List (TestCase α Q)) (cats : List String)
    (modelDir : String) (fs : FS α) : FS α :=
  match runs with
  | [] => fs
  | inf :: rest =>
    runsFold rest casesOf cats modelDir (mainRunOnce inf casesOf cats modelDir fs).1

/-- The records the batch-native (OSS) branch builds
(`openfunctions_evaluation.py` lines 102-103): zip the pending cases with
the returned output list by position and build one `{id, result}` dict per
pair. -/
def batchRecords {α Q : Type} (cases : List (TestCase α Q)) (results : List α) :
    List (JObj α) :=
  (cases.zip results).map (fun p => batchRecord p.1.id p.2)

/-- The batch-native branch of `generate_results`
(`openfunctions_evaluation.py` lines 96-104): write the zipped records one
by one via `handler.write`. -/
def runBatchMode {α Q : Type} (cases : List (TestCase α Q)) (results : List α)
    (modelDir : String) (fs : FS α) : Except RunError (FS α) :=
  (batchRecords cases results).foldlM (fun s e => write modelDir (Sum.inl e) s) fs

/-- `TEST_FILE_MAPPING` (`openfunctions_evaluation.py` lines 26-37). -/
def TEST_FILE_MAPPING : String → Option String
  | "executable_simple" => some "gorilla_openfunctions_v1_test_executable_simple.json"
  | "executable_parallel_function" =>
      some "gorilla_openfunctions_v1_test_executable_parallel_function.json"
  | "executable_multiple_function" =>
      some "gorilla_openfunctions_v1_test_executable_multiple_function.json"
  | "executable_parallel_multiple_function" =>
      some "gorilla_openfunctions_v1_test_executable_parallel_multiple_function.json"
  | "simple" => some "gorilla_openfunctions_v1_test_simple.json"
  | "relevance" => some "gorilla_openfunctions_v1_test_relevance.json"
  | "parallel_function" => some "gorilla_openfunctions_v1_test_parallel_function.json"
  | "multiple_function" => some "gorilla_openfunctions_v1_test_multiple_function.json"
  | "parallel_multiple_function" =>
      some "gorilla_openfunctions_v1_test_parallel_multiple_function.json"
  | "rest" => some "gorilla_openfunctions_v1_test_rest.json"
  | _ => none

/-- Adding one leaf category to the accumulated (name set, file set) pair:
`test_name_total.add(name); test_filename_total.add(TEST_FILE_MAPPING[name])`
(`openfunctions_evaluation.py` lines 52-53 and 55-56); an unknown name
raises `KeyError`. -/
def addLeaf (acc : Finset String × Finset String) (name : String) :
    Except String (Finset String × Finset String) :=
  match TEST_FILE_MAPPING name with
  | some f => .ok (insert name acc.1, insert f acc.2)
  | none => .error name

/-- The `for test_name in TEST_COLLECTION_MAPPING[test_category]` loop
(`openfunctions_evaluation.py` lines 51-53). -/
def addLeaves (acc : Finset String × Finset String) :
    List String → Except String (Finset String × Finset String)
  | [] => .ok acc
  | n :: rest => do addLeaves (← addLeaf acc n) rest

/-- The token loop of `parse_test_category_argument`
(`openfunctions_evaluation.py` lines 49-56), with the alias table
`TEST_COLLECTION_MAPPING` (defined outside this core, in
`eval_checker/eval_checker_constant.py`) taken as the parameter `coll`. -/
def parseAux (coll : String → Option (List String))
    (acc : Finset String × Finset String) :
    List String → Except String (Finset String × Finset String)
  | [] => .ok acc
  | t :: rest =>
    match coll t with
    | some leaves => do parseAux coll (← addLeaves acc leaves) rest
    | none => do parseAux coll (← addLeaf acc t) rest

/-- `parse_test_category_argument` (`openfunctions_evaluation.py`
lines 45-58): expand every requested token into the accumulated set of leaf
category names and the set of their data files (Python accumulates into
`set()`s, so both results are duplicate-free by construction). -/
def parse_test_category_argument (coll : String → Option (List String))
    (tokens : List String) : Except String (Finset String × Finset String) :=
  parseAux coll (∅, ∅) tokens

/-- The leaf categories one requested token contributes: the alias table's
entry for an alias token, the token itself otherwise. -/
def expandNames (coll : String → Option (List String)) (t : String) : Finset String :=
  match coll t with
  | some leaves => leaves.toFinset
  | none => {t}

/-- The data file a leaf name contributes (empty when the name is unknown). -/
def fileOf (n : String) : Finset String :=
  match TEST_FILE_MAPPING n with
  | some f => {f}
  | none => ∅

/-- Modelled from the spec (section 4.2, `countCompleted`): the spec's
claimed count of existing records — "must reflect only records whose id
prefix matches category". This definition follows the spec's words, for
comparison with `num_existing_result`, which is what the code computes. -/
def countCompletedSpec {α : Type} (cat : String) (lines : List (JObj α)) : Nat :=
  (lines.filter (fun e =>
    match recId e with
    | some s => categoryOfId s == cat
    | none => false)).length

/-! ### General helper lemmas -/

theorem foldl_count_aux {α : Type} (lines : List (JObj α)) (n : Nat) :
    lines.foldl (fun n _ => n + 1) n = n + lines.length := by
  induction lines generalizing n with
  | nil => simp
  | cons e rest ih => simp only [List.foldl_cons, List.length_cons, ih]; omega

theorem num_existing_eq_length {α : Type} (lines : List (JObj α)) :
    num_existing_result lines = lines.length := by
  unfold num_existing_result; rw [foldl_count_aux]; omega

theorem startsWithL_iff (n : List Char) (h : List Char) :
    startsWithL n h = true ↔ ∃ v, h = n ++ v := by
  induction n generalizing h with
  | nil => simp [startsWithL]
  | cons a as ih =>
    cases h with
    | nil => simp [startsWithL]
    | cons b bs =>
      simp only [startsWithL, Bool.and_eq_true, beq_iff_eq, ih, List.cons_append]
      constructor
      · rintro ⟨rfl, v, rfl⟩; exact ⟨v, rfl⟩
      · rintro ⟨v, hv⟩
        injection hv with h1 h2
        exact ⟨h1.symm, v, h2⟩

theorem containsSub_iff (n : List Char) (h : List Char) :
    containsSub n h = true ↔ ∃ u v, h = u ++ n ++ v := by
  induction h with
  | nil =>
    simp only [containsSub, List.isEmpty_iff]
    constructor
    · rintro rfl; exact ⟨[], [], rfl⟩
    · rintro ⟨u, v, huv⟩
      rcases List.append_eq_nil.mp huv.symm with ⟨h1, h2⟩
      rcases List.append_eq_nil.mp h1 with ⟨h3, h4⟩
      exact h4
  | cons c rest ih =>
    simp only [containsSub, Bool.or_eq_true, startsWithL_iff, ih]
    constructor
    · rintro (⟨v, hv⟩ | ⟨u, v, huv⟩)
      · exact ⟨[], v, by simpa using hv⟩
      · exact ⟨c :: u, v, by simp [huv]⟩
    · rintro ⟨u, v, huv⟩
      cases u with
      | nil => exact Or.inl ⟨v, by simpa using huv⟩
      | cons x us =>
        right
        simp only [List.cons_append] at huv
        injection huv with h1 h2
        exact ⟨us, v, h2⟩

/-! ### C6: normalization of the function field -/

/-- C6: a test case whose `function` field is a single mapping or a single
string reaches the adapter wrapped as a one-element sequence, and one that
is already a sequence reaches it unchanged — `adapterArgs` is exactly the
`(user_question, functions, test_category)` triple passed to
`handler.inference`. -/
theorem function_field_normalization {α Q : Type} (q : Q) (id : String) (d : α)
    (s : String) (l : List (FuncVal α)) :
    adapterArgs (⟨id, q, FuncField.obj d⟩ : TestCase α Q)
      = (q, [FuncVal.obj d], categoryOfId id) ∧
    adapterArgs (⟨id, q, FuncField.str s⟩ : TestCase α Q)
      = (q, [FuncVal.str s], categoryOfId id) ∧
    adapterArgs (⟨id, q, FuncField.seq l⟩ : TestCase α Q)
      = (q, l, categoryOfId id) :=
  ⟨rfl, rfl, rfl⟩

/-! ### C3: what the resumption count actually counts -/

/-- A (model, "simple") result log whose single line carries an id of a
different category. -/
def foreignLog : List (JObj Unit) := [batchRecord "other_0" ()]

/-- C3 (counterexample): the code's completed-count counts every line of the
log file; a log for category "simple" whose only record has id "other_0"
(id prefix "other", not "simple") is counted as 1 completed case, while a
count restricted to matching id prefixes — what the claim asserts — would
be 0. -/
theorem count_includes_nonmatching_records :
    num_existing_result foreignLog = 1 ∧
    (∀ e ∈ foreignLog, recId e = some "other_0") ∧
    categoryOfId "other_0" = "other" ∧
    countCompletedSpec "simple" foreignLog = 0 := by decide

/-- C3 (amended): the completed-count used for resumption is the total
number of lines in the per-(model, category) log file, regardless of each
record's id prefix; it is 0 when the file is absent. -/
theorem resumption_count_counts_all_lines {α : Type} (fs : FS α) (cat : String) :
    num_existing_result (fs.files (fileFor cat)) = (fs.files (fileFor cat)).length ∧
    num_existing_result ((emptyFS : FS α).files (fileFor cat)) = 0 :=
  ⟨num_existing_eq_length _, rfl⟩

/-! ### C5: the selector skips exactly the completed leading cases -/

/-- C5: for a category whose data file holds `n` ordered cases and whose log
holds `c` lines, the selector returns exactly the cases after the first
`c`, in source order — `n - c` cases when `c ≤ n`. -/
theorem collect_skips_exactly_completed {α Q : Type}
    (casesOf : String → List (TestCase α Q)) (cat : String) (fs : FS α)
    (h : num_existing_result (fs.files (fileFor cat)) ≤ (casesOf cat).length) :
    collect_test_cases casesOf [cat] fs
      = (casesOf cat).drop (num_existing_result (fs.files (fileFor cat))) ∧
    (collect_test_cases casesOf [cat] fs).length
      = (casesOf cat).length - num_existing_result (fs.files (fileFor cat)) := by
  constructor
  · simp [collect_test_cases]
  · simp [collect_test_cases]

/-- The three cases of the "simple" data file in the spec's scenario. -/
def demoCase0 : TestCase Unit Unit := ⟨"simple_0", (), FuncField.seq []⟩

def demoCase1 : TestCase Unit Unit := ⟨"simple_1", (), FuncField.seq []⟩

def demoCase2 : TestCase Unit Unit := ⟨"simple_2", (), FuncField.seq []⟩

def demoCasesOf : String → List (TestCase Unit Unit) :=
  fun c => if c = "simple" then [demoCase0, demoCase1, demoCase2] else []

/-- A file system whose "simple" result log already holds one record. -/
def demoFS : FS Unit :=
  { dirs := ["m"],
    files := fun g => if g = fileFor "simple" then [batchRecord "simple_0" ()] else [] }

theorem collect_scenario_witness :
    num_existing_result (demoFS.files (fileFor "simple")) ≤ (demoCasesOf "simple").length ∧
    collect_test_cases demoCasesOf ["simple"] demoFS = [demoCase1, demoCase2] :=
  ⟨by decide,
   ((collect_skips_exactly_completed demoCasesOf "simple" demoFS (by decide)).1).trans
     (by decide)⟩

/-! ### C9: batch-native mode writes positional id/result pairs only -/

/-- C9 (counterexample): the batch-native branch's record for a pair carries
only the keys `id` and `result`; the token-count and latency fields the
claim lists are absent. -/
theorem batch_record_lacks_usage_fields :
    batchRecords [(⟨"simple_0", (), FuncField.seq []⟩ : TestCase Unit Unit)] [()]
      = [[("id", JVal.str "simple_0"), ("result", JVal.payload ())]] ∧
    lookupKey (batchRecord "simple_0" ()) "input_token_count" = none ∧
    lookupKey (batchRecord "simple_0" ()) "output_token_count" = none ∧
    lookupKey (batchRecord "simple_0" ()) "latency" = none ∧
    (batchRecord "simple_0" ()).map Prod.fst = ["id", "result"] := by decide

/-- C9 (amended): in batch-native mode the runner zips inputs with outputs
by position and writes one record per pair; the k-th record written carries
the k-th pending case's id and the paired output, and every batch-mode
record carries exactly the fields `{id, result}`. -/
theorem batch_mode_pairs_by_position {α Q : Type} (cases : List (TestCase α Q))
    (results : List α) (k : Nat) (h1 : k < cases.length) (h2 : k < results.length) :
    (batchRecords cases results).length = min cases.length results.length ∧
    (∃ h3 : k < (batchRecords cases results).length,
      (batchRecords cases results).get ⟨k, h3⟩
        = batchRecord (cases.get ⟨k, h1⟩).id (results.get ⟨k, h2⟩)) ∧
    ∀ rec ∈ batchRecords cases results, rec.map Prod.fst = ["id", "result"] := by
  refine ⟨by simp [batchRecords], ?_, ?_⟩
  · have h3 : k < (batchRecords cases results).length := by
      simp only [batchRecords, List.length_map, List.length_zip]
      omega
    refine ⟨h3, ?_⟩
    simp [batchRecords, List.get_eq_getElem, List.getElem_zip]
  · intro rec hrec
    simp only [batchRecords, List.mem_map] at hrec
    obtain ⟨p, hp, rfl⟩ := hrec
    rfl

theorem batch_pairs_witness :
    (batchRecords [demoCase0, demoCase1] [(), ()]).length
      = min [demoCase0, demoCase1].length [(), ()].length ∧
    (∃ h3 : 1 < (batchRecords [demoCase0, demoCase1] [(), ()]).length,
      (batchRecords [demoCase0, demoCase1] [(), ()]).get ⟨1, h3⟩
        = batchRecord ([demoCase0, demoCase1].get ⟨1, by decide⟩).id
            ([(), ()].get ⟨1, by decide⟩)) ∧
    ∀ rec ∈ batchRecords [demoCase0, demoCase1] [(), ()],
      rec.map Prod.fst = ["id", "result"] :=
  batch_mode_pairs_by_position [demoCase0, demoCase1] [(), ()] 1 (by decide) (by decide)

/-! ### C1: what actually happens when the retry limit is exhausted -/

/-- A provider error carrying an explicit rate-limit message. -/
def rateLimitedErr : ApiError :=
  { msg := "Rate limit reached for the model", status_code := none }

/-- A handler whose attempts for question "q0" succeed at once and whose
attempts for any other question always raise a rate-limit error. -/
def demoInfStale : Inference String String := fun q _ _ _ =>
  if q = "q0" then .ok "answer0" ⟨10, 20, 3⟩ else .err rateLimitedErr

def staleCase0 : TestCase String String := ⟨"simple_0", "q0", FuncField.seq []⟩

def staleCase1 : TestCase String String := ⟨"simple_1", "q1", FuncField.seq []⟩

/-- A handler that raises a rate-limit error on attempts 0 and 1 and
succeeds on attempt 2. -/
def demoInfTwoFails : Inference String String := fun _ _ _ n =>
  if n < 2 then .err rateLimitedErr else .ok "ok" ⟨1, 2, 3⟩

/-- C1 (divergence witness): with retry limit 3, two transient failures
followed by success do yield success after 2 retries (the claim's N &lt; R
half). But when all 3 attempts fail transiently, the loop exits without
raising: if a previous case already assigned `result`/`metadata`, the run
does not fail at all — it writes a record for the exhausted case carrying
the previous case's result and keeps going (below, the record written for
`simple_1` carries `simple_0`'s answer); only when no previous case
succeeded does the fall-through raise `UnboundLocalError`, which is not a
retries-exhausted error either. -/
theorem retries_exhausted_silently_mislabels_result :
    retryFrom (fun n => demoInfTwoFails "q" [] "simple" n) RETRY_LIMIT 0
      = LoopOut.success "ok" ⟨1, 2, 3⟩ 2 ∧
    (runInteractive demoInfStale "m" none [staleCase0, staleCase1] emptyFS).2 = none ∧
    (runInteractive demoInfStale "m" none [staleCase0, staleCase1] emptyFS).1.files
        (fileFor "simple")
      = [interactiveRecord "simple_0" "answer0" ⟨10, 20, 3⟩,
         interactiveRecord "simple_1" "answer0" ⟨10, 20, 3⟩] ∧
    processCase demoInfStale none staleCase1 = .error RunError.unboundLocal :=
  ⟨rfl, rfl, rfl, rfl⟩

/-! ### C4: transient/fatal classification and the retry policy -/

/-- C4: the retry controller classifies a raised error as transient exactly
when its lowercased string form contains "rate limit reached" or its status
code is 429, 503 or 500; inside the loop a non-transient error is re-raised
immediately, with no sleep and no further attempt, while a transient error
adds one backoff sleep and continues the loop at the next attempt index. -/
theorem retry_classification_and_policy {α : Type} (attempt : Nat → AttemptOut α)
    (limit count : Nat) (e : ApiError) (hlt : count < limit)
    (hatt : attempt count = .err e) :
    (isTransientError e = true ↔
      ((∃ u v, lowerStr e.msg = u ++ "rate limit reached".data ++ v) ∨
       e.status_code = some 429 ∨ e.status_code = some 503 ∨
       e.status_code = some 500)) ∧
    (isTransientError e = false → retryFrom attempt limit count = LoopOut.fatal e 0) ∧
    (isTransientError e = true →
      retryFrom attempt limit count = addSleep (retryFrom attempt limit (count + 1))) := by
  refine ⟨?_, ?_, ?_⟩
  · unfold isTransientError
    rw [Bool.or_eq_true, containsSub_iff]
    cases h : e.status_code with
    | none => simp
    | some c =>
      simp only [Bool.or_eq_true, beq_iff_eq, Option.some_inj]
      constructor
      · rintro (h1 | (hc | hc) | hc)
        · exact Or.inl h1
        · exact Or.inr (Or.inl hc)
        · exact Or.inr (Or.inr (Or.inl hc))
        · exact Or.inr (Or.inr (Or.inr hc))
      · rintro (h1 | hc | hc | hc)
        · exact Or.inl h1
        · exact Or.inr (Or.inl (Or.inl hc))
        · exact Or.inr (Or.inl (Or.inr hc))
        · exact Or.inr (Or.inr hc)
  · intro hf
    rw [retryFrom_eq attempt limit count]
    simp [hlt, hatt, hf]
  · intro ht
    rw [retryFrom_eq attempt limit count]
    simp [hlt, hatt, ht]

/-- A provider error with a 503 status and no rate-limit message. -/
def overloadedErr : ApiError := { msg := "server had an error", status_code := some 503 }

theorem retry_policy_witness :
    (isTransientError overloadedErr = true ↔
      ((∃ u v, lowerStr overloadedErr.msg = u ++ "rate limit reached".data ++ v) ∨
       overloadedErr.status_code = some 429 ∨ overloadedErr.status_code = some 503 ∨
       overloadedErr.status_code = some 500)) ∧
    (isTransientError overloadedErr = false →
      retryFrom (fun _ => (AttemptOut.err overloadedErr : AttemptOut Unit)) 3 0
        = LoopOut.fatal overloadedErr 0) ∧
    (isTransientError overloadedErr = true →
      retryFrom (fun _ => (AttemptOut.err overloadedErr : AttemptOut Unit)) 3 0
        = addSleep (retryFrom (fun _ => (AttemptOut.err overloadedErr : AttemptOut Unit)) 3 1)) :=
  retry_classification_and_policy (fun _ => AttemptOut.err overloadedErr) 3 0
    overloadedErr (by decide) rfl

/-! ### C7: alias expansion is a set union -/

theorem addLeaf_ok (acc : Finset String × Finset String) (name : String)
    (acc2 : Finset String × Finset String) (h : addLeaf acc name = .ok acc2) :
    acc2.1 = acc.1 ∪ {name} ∧ acc2.2 = acc.2 ∪ fileOf name := by
  unfold addLeaf at h
  cases hm : TEST_FILE_MAPPING name with
  | none => rw [hm] at h; cases h
  | some f =>
    rw [hm] at h
    cases h
    have hf : fileOf name = {f} := by unfold fileOf; rw [hm]
    constructor
    · show insert name acc.1 = acc.1 ∪ {name}
      rw [Finset.insert_eq, Finset.union_comm]
    · show insert f acc.2 = acc.2 ∪ fileOf name
      rw [hf, Finset.insert_eq, Finset.union_comm]

theorem addLeaves_ok (leaves : List String) :
    ∀ acc acc2 : Finset String × Finset String, addLeaves acc leaves = .ok acc2 →
      acc2.1 = acc.1 ∪ leaves.toFinset ∧
      acc2.2 = acc.2 ∪ leaves.toFinset.biUnion fileOf := by
  induction leaves with
  | nil =>
    intro acc acc2 h
    simp only [addLeaves] at h
    cases h
    simp
  | cons n rest ih =>
    intro acc acc2 h
    simp only [addLeaves, bind, Except.bind] at h
    split at h
    · cases h
    · next acc1 heq =>
      obtain ⟨h1, h2⟩ := ih acc1 acc2 h
      obtain ⟨g1, g2⟩ := addLeaf_ok acc n acc1 heq
      constructor
      · simp only [h1, g1, List.toFinset_cons, Finset.insert_eq, Finset.union_assoc]
      · simp only [h2, g2, List.toFinset_cons, Finset.biUnion_insert, Finset.union_assoc]

theorem parseAux_ok (coll : String → Option (List String)) (tokens : List String) :
    ∀ acc acc2 : Finset String × Finset String, parseAux coll acc tokens = .ok acc2 →
      acc2.1 = acc.1 ∪ tokens.toFinset.biUnion (expandNames coll) ∧
      acc2.2 = acc.2 ∪ tokens.toFinset.biUnion
          (fun t => (expandNames coll t).biUnion fileOf) := by
  induction tokens with
  | nil =>
    intro acc acc2 h
    simp only [parseAux] at h
    cases h
    simp
  | cons t rest ih =>
    intro acc acc2 h
    simp only [parseAux, bind, Except.bind] at h
    split at h
    · next leaves hc =>
      have hexp : expandNames coll t = leaves.toFinset := by
        unfold expandNames; rw [hc]
      split at h
      · cases h
      · next acc1 heq =>
        obtain ⟨h1, h2⟩ := ih acc1 acc2 h
        obtain ⟨g1, g2⟩ := addLeaves_ok leaves acc acc1 heq
        constructor
        · simp only [h1, g1, List.toFinset_cons, Finset.biUnion_insert, hexp,
            Finset.union_assoc]
        · simp only [h2, g2, List.toFinset_cons, Finset.biUnion_insert, hexp,
            Finset.union_assoc]
    · next hc =>
      have hexp : expandNames coll t = {t} := by
        unfold expandNames; rw [hc]
      split at h
      · cases h
      · next acc1 heq =>
        obtain ⟨h1, h2⟩ := ih acc1 acc2 h
        obtain ⟨g1, g2⟩ := addLeaf_ok acc t acc1 heq
        constructor
        · simp only [h1, g1, List.toFinset_cons, Finset.biUnion_insert, hexp,
            Finset.singleton_biUnion, Finset.union_assoc]
        · simp only [h2, g2, List.toFinset_cons, Finset.biUnion_insert, hexp,
            Finset.singleton_biUnion, Finset.union_assoc]

/-- C7: the resolved leaf-category set is the set union of every requested
token's expansion (an alias token contributes the alias table's leaf list,
any other token contributes itself), and the resolved data-file set is the
union of the files of those leaves; both are `Finset`s, so overlapping
aliases or a twice-requested leaf collapse and each leaf is processed at
most once. -/
theorem alias_expansion_is_set_union (coll : String → Option (List String))
    (tokens : List String) (ns fls : Finset String)
    (h : parse_test_category_argument coll tokens = .ok (ns, fls)) :
    ns = tokens.toFinset.biUnion (expandNames coll) ∧
    fls = tokens.toFinset.biUnion (fun t => (expandNames coll t).biUnion fileOf) := by
  obtain ⟨h1, h2⟩ := parseAux_ok coll tokens (∅, ∅) (ns, fls) h
  exact ⟨by simpa using h1, by simpa using h2⟩

/-- A demonstration alias table with two aliases whose expansions overlap in
the leaf "simple". -/
def collDemo : String → Option (List String) := fun t =>
  if t = "ai" then some ["simple", "rest"]
  else if t = "exec" then some ["simple", "relevance"] else none

theorem alias_union_witness :
    parse_test_category_argument collDemo ["ai", "exec", "simple"]
      = .ok ({"relevance", "rest", "simple"},
          {"gorilla_openfunctions_v1_test_relevance.json",
           "gorilla_openfunctions_v1_test_rest.json",
           "gorilla_openfunctions_v1_test_simple.json"}) ∧
    ({"relevance", "rest", "simple"} : Finset String)
      = (["ai", "exec", "simple"] : List String).toFinset.biUnion (expandNames collDemo) :=
  ⟨rfl,
   (alias_expansion_is_set_union collDemo ["ai", "exec", "simple"]
      {"relevance", "rest", "simple"}
      {"gorilla_openfunctions_v1_test_relevance.json",
       "gorilla_openfunctions_v1_test_rest.json",
       "gorilla_openfunctions_v1_test_simple.json"} rfl).1⟩

/-! ### C10: the checkpoint writer routes every record by its own id -/

theorem fileFor_inj {c1 c2 : String} (h : fileFor c1 = fileFor c2) : c1 = c2 := by
  have hd := congrArg String.data h
  simp only [fileFor, String.data_append] at hd
  exact String.ext (List.append_cancel_left (List.append_cancel_right hd))

/-- Every record in every (model, category) log file carries a string id
whose prefix is exactly that category. -/
def routedOk {α : Type} (fs : FS α) : Prop :=
  ∀ cat : String, ∀ e ∈ fs.files (fileFor cat),
    ∃ id, recId e = some id ∧ categoryOfId id = cat

theorem routedOk_appendLine {α : Type} (fs : FS α) (e : JObj α) (id : String)
    (hid : recId e = some id) (hfs : routedOk fs) :
    routedOk (appendLine (fileFor (categoryOfId id)) e fs) := by
  intro cat x hx
  simp only [appendLine] at hx
  by_cases hc : fileFor cat = fileFor (categoryOfId id)
  · rw [if_pos hc] at hx
    rcases List.mem_append.mp hx with hx | hx
    · exact hfs cat x hx
    · have hxe : x = e := by simpa using hx
      subst hxe
      exact ⟨id, hid, (fileFor_inj hc).symm⟩
  · rw [if_neg hc] at hx
    exact hfs cat x hx

theorem writeEntries_routed {α : Type} (entries : List (JObj α)) :
    ∀ fs fs' : FS α, routedOk fs → writeEntries entries fs = .ok fs' →
      routedOk fs' ∧ fs'.dirs = fs.dirs := by
  induction entries with
  | nil =>
    intro fs fs' hfs h
    simp only [writeEntries] at h
    cases h
    exact ⟨hfs, rfl⟩
  | cons e rest ih =>
    intro fs fs' hfs h
    simp only [writeEntries] at h
    split at h
    · next id hid =>
      obtain ⟨h1, h2⟩ := ih _ fs' (routedOk_appendLine fs e id hid hfs) h
      exact ⟨h1, h2⟩
    · cases h

theorem routedOk_makedirs {α : Type} (d : String) (fs : FS α) (hfs : routedOk fs) :
    routedOk (makedirs d fs) := by
  intro cat e he
  unfold makedirs at he
  split at he
  · exact hfs cat e he
  · exact hfs cat e he

theorem mem_dirs_makedirs {α : Type} (d : String) (fs : FS α) :
    d ∈ (makedirs d fs).dirs := by
  unfold makedirs
  split
  · next h => exact h
  · exact List.mem_cons_self d _

/-- C10: `BaseHandler.write` wraps a single dict into a one-element list,
creates the model's result directory if absent, and appends each entry as
one line to the log file named by that entry's own id prefix — never by the
category being run; consequently, if every line of every (model, category)
log file already has an id whose prefix is that category, the same holds
after any successful `write`. -/
theorem write_routes_records_by_id {α : Type} (modelDir : String)
    (res : JObj α ⊕ List (JObj α)) (fs fs' : FS α)
    (hfs : routedOk fs) (h : write modelDir res fs = .ok fs') :
    routedOk fs' ∧ modelDir ∈ fs'.dirs ∧
    (∀ d : JObj α, write modelDir (Sum.inl d) fs = write modelDir (Sum.inr [d]) fs) := by
  simp only [write] at h
  obtain ⟨h1, h2⟩ := writeEntries_routed _ _ _ (routedOk_makedirs modelDir fs hfs) h
  refine ⟨h1, ?_, fun d => rfl⟩
  rw [h2]
  exact mem_dirs_makedirs modelDir fs

theorem write_routing_witness :
    routedOk (emptyFS : FS Unit) ∧
    (routedOk (appendLine (fileFor (categoryOfId "simple_0")) (batchRecord "simple_0" ())
        (makedirs "m" (emptyFS : FS Unit))) ∧
      "m" ∈ (appendLine (fileFor (categoryOfId "simple_0")) (batchRecord "simple_0" ())
        (makedirs "m" (emptyFS : FS Unit))).dirs ∧
      (∀ d : JObj Unit, write "m" (Sum.inl d) emptyFS = write "m" (Sum.inr [d]) emptyFS)) :=
  ⟨fun _ e he => absurd he (List.not_mem_nil e),
   write_routes_records_by_id "m" (Sum.inl (batchRecord "simple_0" ())) emptyFS _
     (fun _ e he => absurd he (List.not_mem_nil e)) rfl⟩

/-! ### Runner lemmas shared by the prefix-invariant and idempotence proofs -/

theorem files_makedirs {α : Type} (d : String) (fs : FS α) (f : String) :
    (makedirs d fs).files f = fs.files f := by
  unfold makedirs; split <;> rfl

theorem recId_interactiveRecord {α : Type} (id : String) (r : α) (m : Metadata) :
    recId (interactiveRecord id r m) = some id := rfl

theorem write_interactiveRecord {α : Type} (modelDir id : String) (r : α) (m : Metadata)
    (fs : FS α) :
    write modelDir (Sum.inl (interactiveRecord id r m)) fs
      = .ok (appendLine (fileFor (categoryOfId id)) (interactiveRecord id r m)
          (makedirs modelDir fs)) := rfl

theorem processCase_ok_shape {α Q : Type} (inf : Inference α Q)
    (prev : Option (α × Metadata)) (tc : TestCase α Q)
    (x : JObj α × (α × Metadata)) (h : processCase inf prev tc = .ok x) :
    x.1 = interactiveRecord tc.id x.2.1 x.2.2 := by
  simp only [processCase] at h
  split at h
  · cases h; rfl
  · cases h
  · split at h
    · cases h; rfl
    · cases h

/-- Interactive processing splits the pending list into a processed part `P`
and an unprocessed part `S`; to any fixed file `f` it appends exactly the
records of the cases of `P` whose id routes to `f`, in order, and a run that
finishes without error processes everything (`S = []`). -/
theorem runInteractive_growth {α Q : Type} (inf : Inference α Q) (modelDir f : String) :
    ∀ (cases : List (TestCase α Q)) (prev : Option (α × Metadata)) (fs : FS α),
      ∃ P S recs, cases = P ++ S ∧
        (runInteractive inf modelDir prev cases fs).1.files f = fs.files f ++ recs ∧
        recs.map recId
          = (P.filter (fun tc => fileFor (categoryOfId tc.id) == f)).map
              (fun tc => some tc.id) ∧
        ((runInteractive inf modelDir prev cases fs).2 = none → S = []) := by
  intro cases
  induction cases with
  | nil =>
    intro prev fs
    exact ⟨[], [], [], rfl, by simp [runInteractive], rfl, fun _ => rfl⟩
  | cons tc rest ih =>
    intro prev fs
    cases hp : processCase inf prev tc with
    | error err =>
      have hrun : runInteractive inf modelDir prev (tc :: rest) fs = (fs, some err) := by
        simp only [runInteractive, hp]
      refine ⟨[], tc :: rest, [], rfl, ?_, rfl, ?_⟩
      · rw [hrun]; simp
      · intro hnone; rw [hrun] at hnone; simp at hnone
    | ok x =>
      have hshape := processCase_ok_shape inf prev tc x hp
      have hrun : runInteractive inf modelDir prev (tc :: rest) fs
          = runInteractive inf modelDir (some x.2) rest
              (appendLine (fileFor (categoryOfId tc.id))
                (interactiveRecord tc.id x.2.1 x.2.2) (makedirs modelDir fs)) := by
        simp only [runInteractive, hp, hshape, write_interactiveRecord]
      obtain ⟨P, S, recs, hps, hfiles, hmap, hnone⟩ :=
        ih (some x.2) (appendLine (fileFor (categoryOfId tc.id))
          (interactiveRecord tc.id x.2.1 x.2.2) (makedirs modelDir fs))
      refine ⟨tc :: P, S,
        (if f = fileFor (categoryOfId tc.id) then
          [interactiveRecord tc.id x.2.1 x.2.2] else []) ++ recs,
        by rw [hps, List.cons_append], ?_, ?_, ?_⟩
      · rw [hrun, hfiles]
        simp only [appendLine, files_makedirs]
        by_cases hf : f = fileFor (categoryOfId tc.id)
        · rw [if_pos hf, if_pos hf, List.append_assoc]
        · rw [if_neg hf, if_neg hf]
          simp
      · by_cases hf : fileFor (categoryOfId tc.id) = f
        · subst hf
          simp [List.filter_cons, recId_interactiveRecord, hmap]
        · have hf2 : ¬f = fileFor (categoryOfId tc.id) := fun hh => hf hh.symm
          have hb : (fileFor (categoryOfId tc.id) == f) = false := by
            simpa using hf
          simp [List.filter_cons, hf2, hb, hmap]
      · intro h2
        rw [hrun] at h2
        exact hnone h2

theorem collect_makedirs {α Q : Type} (casesOf : String → List (TestCase α Q))
    (d : String) (fs : FS α) : ∀ cats,
      collect_test_cases casesOf cats (makedirs d fs)
        = collect_test_cases casesOf cats fs := by
  intro cats
  induction cats with
  | nil => rfl
  | cons c rest ih => simp only [collect_test_cases, files_makedirs, ih]

theorem collect_filter_not_mem {α Q : Type} (casesOf : String → List (TestCase α Q))
    (fs : FS α) (cat : String) :
    ∀ cats, cat ∉ cats →
      (∀ c ∈ cats, ∀ tc ∈ casesOf c, categoryOfId tc.id = c) →
      (collect_test_cases casesOf cats fs).filter
          (fun tc => fileFor (categoryOfId tc.id) == fileFor cat) = [] := by
  intro cats
  induction cats with
  | nil => intro _ _; rfl
  | cons c rest ih =>
    intro hmem hpfx
    simp only [collect_test_cases, List.filter_append]
    rw [ih (fun hc => hmem (List.mem_cons_of_mem c hc))
        (fun c' hc' => hpfx c' (List.mem_cons_of_mem c hc')), List.append_nil]
    rw [List.filter_eq_nil_iff]
    intro tc htc
    rw [hpfx c (List.mem_cons_self c rest) tc (List.mem_of_mem_drop htc)]
    intro hb
    exact hmem (by rw [fileFor_inj (beq_iff_eq.mp hb)]; exact List.mem_cons_self cat rest)

theorem collect_filter_mem {α Q : Type} (casesOf : String → List (TestCase α Q))
    (fs : FS α) (cat : String) :
    ∀ cats, cats.Nodup → cat ∈ cats →
      (∀ c ∈ cats, ∀ tc ∈ casesOf c, categoryOfId tc.id = c) →
      (collect_test_cases casesOf cats fs).filter
          (fun tc => fileFor (categoryOfId tc.id) == fileFor cat)
        = (casesOf cat).drop (num_existing_result (fs.files (fileFor cat))) := by
  intro cats
  induction cats with
  | nil => intro _ hmem _; exact absurd hmem (List.not_mem_nil cat)
  | cons c rest ih =>
    intro hnd hmem hpfx
    simp only [collect_test_cases, List.filter_append]
    rcases List.mem_cons.mp hmem with heq | hmem'
    · subst heq
      rw [collect_filter_not_mem casesOf fs cat rest (List.nodup_cons.mp hnd).1
          (fun c' hc' => hpfx c' (List.mem_cons_of_mem cat hc')), List.append_nil]
      rw [List.filter_eq_self]
      intro tc htc
      rw [hpfx cat (List.mem_cons_self cat rest) tc (List.mem_of_mem_drop htc)]
      exact beq_self_eq_true (fileFor cat)
    · have hcc : c ≠ cat := by
        rintro rfl
        exact (List.nodup_cons.mp hnd).1 hmem'
      have hblock : ((casesOf c).drop
            (num_existing_result (fs.files (fileFor c)))).filter
            (fun tc => fileFor (categoryOfId tc.id) == fileFor cat) = [] := by
        rw [List.filter_eq_nil_iff]
        intro tc htc
        rw [hpfx c (List.mem_cons_self c rest) tc (List.mem_of_mem_drop htc)]
        intro hb
        exact hcc (fileFor_inj (beq_iff_eq.mp hb))
      rw [hblock, List.nil_append]
      exact ih (List.nodup_cons.mp hnd).2 hmem'
        (fun c' hc' => hpfx c' (List.mem_cons_of_mem c hc'))

/-- The resumption invariant for one (model, category) log: the recorded
lines are exactly the records of the first `n` cases of that category's
ordered case list, in order. -/
def logInv {α Q : Type} (casesOf : String → List (TestCase α Q)) (cat : String)
    (fs : FS α) : Prop :=
  ∃ n, n ≤ (casesOf cat).length ∧
    (fs.files (fileFor cat)).map recId
      = (((casesOf cat).map TestCase.id).take n).map some

theorem mainRunOnce_logInv {α Q : Type} (inf : Inference α Q)
    (casesOf : String → List (TestCase α Q)) (cats : List String) (cat modelDir : String)
    (fs : FS α) (hnd : cats.Nodup)
    (hpfx : ∀ c ∈ cats, ∀ tc ∈ casesOf c, categoryOfId tc.id = c)
    (hinv : logInv casesOf cat fs) :
    logInv casesOf cat (mainRunOnce inf casesOf cats modelDir fs).1 := by
  obtain ⟨n, hn, hlog⟩ := hinv
  have hlen : (fs.files (fileFor cat)).length = n := by
    have h1 := congrArg List.length hlog
    simp only [List.length_map, List.length_take] at h1
    omega
  simp only [mainRunOnce]
  by_cases hz : (collect_test_cases casesOf cats (makedirs modelDir fs)).length = 0
  · rw [if_pos hz]
    exact ⟨n, hn, by rw [files_makedirs]; exact hlog⟩
  · rw [if_neg hz]
    obtain ⟨P, S, recs, hps, hfiles, hmap, _⟩ :=
      runInteractive_growth inf modelDir (fileFor cat)
        (collect_test_cases casesOf cats (makedirs modelDir fs)) none
        (makedirs modelDir fs)
    by_cases hmem : cat ∈ cats
    · have hfull : (collect_test_cases casesOf cats (makedirs modelDir fs)).filter
          (fun tc => fileFor (categoryOfId tc.id) == fileFor cat)
          = (casesOf cat).drop n := by
        rw [collect_filter_mem casesOf (makedirs modelDir fs) cat cats hnd hmem hpfx,
          files_makedirs, num_existing_eq_length, hlen]
      have hsplit : (P.filter (fun tc => fileFor (categoryOfId tc.id) == fileFor cat))
            ++ (S.filter (fun tc => fileFor (categoryOfId tc.id) == fileFor cat))
          = (casesOf cat).drop n := by
        rw [← List.filter_append, ← hps, hfull]
      have hPf : P.filter (fun tc => fileFor (categoryOfId tc.id) == fileFor cat)
          = ((casesOf cat).drop n).take
              ((P.filter (fun tc => fileFor (categoryOfId tc.id) == fileFor cat)).length) := by
        rw [← hsplit]
        exact (List.take_left _ _).symm
      have hlen2 := congrArg List.length hsplit
      rw [List.length_append, List.length_drop] at hlen2
      refine ⟨n + (P.filter
        (fun tc => fileFor (categoryOfId tc.id) == fileFor cat)).length, by omega, ?_⟩
      rw [hfiles, List.map_append, files_makedirs, hlog, hmap, hPf, List.take_add,
        List.map_append]
      congr 1
      simp only [List.map_take, List.map_drop, List.map_map, List.length_take,
        List.length_drop]
      rw [Nat.min_eq_left (by omega)]
      rfl
    · have hfull : (collect_test_cases casesOf cats (makedirs modelDir fs)).filter
          (fun tc => fileFor (categoryOfId tc.id) == fileFor cat) = [] :=
        collect_filter_not_mem casesOf (makedirs modelDir fs) cat cats hmem hpfx
      have hsplit : (P.filter (fun tc => fileFor (categoryOfId tc.id) == fileFor cat))
            ++ (S.filter (fun tc => fileFor (categoryOfId tc.id) == fileFor cat)) = [] := by
        rw [← List.filter_append, ← hps, hfull]
      have hPf : P.filter (fun tc => fileFor (categoryOfId tc.id) == fileFor cat) = [] :=
        (List.append_eq_nil.mp hsplit).1
      have hrecs : recs = [] := by
        rw [hPf] at hmap
        simpa using hmap
      exact ⟨n, hn, by
        rw [hfiles, hrecs, files_makedirs, List.append_nil, hlog]⟩

theorem runsFold_logInv {α Q : Type} (casesOf : String → List (TestCase α Q))
    (cats : List String) (cat modelDir : String) (hnd : cats.Nodup)
    (hpfx : ∀ c ∈ cats, ∀ tc ∈ casesOf c, categoryOfId tc.id = c) :
    ∀ (runs : List (Inference α Q)) (fs : FS α), logInv casesOf cat fs →
      logInv casesOf cat (runsFold runs casesOf cats modelDir fs) := by
  intro runs
  induction runs with
  | nil => intro fs h; exact h
  | cons inf rest ih =>
    intro fs h
    exact ih _ (mainRunOnce_logInv inf casesOf cats cat modelDir fs hnd hpfx h)

/-- C2: after any sequence of interactive-mode runs over the benchmark data
(each run resuming from what the previous one recorded, and each possibly
aborted by a raised error mid-list), the sequence of record ids in a
category's log is exactly the ids of the first `k` cases of that category's
ordered case list, for some `k` — never out of order and never sparse. The
hypotheses state what the data files guarantee: the requested categories are
distinct and every case id in a category's file carries that category as its
id prefix. -/
theorem interactive_runs_write_initial_segment {α Q : Type}
    (runs : List (Inference α Q)) (casesOf : String → List (TestCase α Q))
    (cats : List String) (cat modelDir : String) (hnd : cats.Nodup)
    (hpfx : ∀ c ∈ cats, ∀ tc ∈ casesOf c, categoryOfId tc.id = c) :
    ∃ k, ((runsFold runs casesOf cats modelDir emptyFS).files (fileFor cat)).map recId
        = (((casesOf cat).map TestCase.id).take k).map some := by
  have h0 : logInv casesOf cat (emptyFS : FS α) :=
    ⟨0, Nat.zero_le _, by simp [emptyFS]⟩
  obtain ⟨k, _, heq⟩ :=
    runsFold_logInv casesOf cats cat modelDir hnd hpfx runs emptyFS h0
  exact ⟨k, heq⟩

/-- A handler whose every attempt succeeds at once. -/
def demoInfOk : Inference Unit Unit := fun _ _ _ _ => .ok () ⟨1, 1, 1⟩

theorem interactive_prefix_witness :
    (["simple"] : List String).Nodup ∧
    (∀ c ∈ (["simple"] : List String), ∀ tc ∈ demoCasesOf c, categoryOfId tc.id = c) ∧
    ∃ k, ((runsFold [demoInfOk] demoCasesOf ["simple"] "m" emptyFS).files
            (fileFor "simple")).map recId
        = (((demoCasesOf "simple").map TestCase.id).take k).map some :=
  ⟨by decide, by decide,
   interactive_runs_write_initial_segment [demoInfOk] demoCasesOf ["simple"] "simple" "m"
     (by decide) (by decide)⟩

theorem collect_eq_nil_of_drops {α Q : Type} (casesOf : String → List (TestCase α Q))
    (fs : FS α) : ∀ cats,
      (∀ c ∈ cats, (casesOf c).drop (num_existing_result (fs.files (fileFor c))) = []) →
      collect_test_cases casesOf cats fs = [] := by
  intro cats
  induction cats with
  | nil => intro _; rfl
  | cons c rest ih =>
    intro h
    simp only [collect_test_cases]
    rw [h c (List.mem_cons_self c rest),
      ih (fun c' hc' => h c' (List.mem_cons_of_mem c hc'))]
    rfl

/-- C8: resumption is idempotent — if an interactive-mode run over the
requested categories finishes without error, an immediately following run
with the same arguments and the same benchmark data selects zero pending
cases and appends zero records to any log file. The hypotheses state what
the data files guarantee: the requested categories are distinct, and every
case id in a category's file carries that category as its id prefix. -/
theorem resume_is_idempotent {α Q : Type} (inf inf2 : Inference α Q)
    (casesOf : String → List (TestCase α Q)) (cats : List String) (modelDir : String)
    (fs0 : FS α) (hnd : cats.Nodup)
    (hpfx : ∀ c ∈ cats, ∀ tc ∈ casesOf c, categoryOfId tc.id = c)
    (hok : (mainRunOnce inf casesOf cats modelDir fs0).2 = none) :
    collect_test_cases casesOf cats (mainRunOnce inf casesOf cats modelDir fs0).1 = [] ∧
    (mainRunOnce inf2 casesOf cats modelDir
        (mainRunOnce inf casesOf cats modelDir fs0).1).1.files
      = (mainRunOnce inf casesOf cats modelDir fs0).1.files := by
  have hcoll : collect_test_cases casesOf cats
      (mainRunOnce inf casesOf cats modelDir fs0).1 = [] := by
    simp only [mainRunOnce] at hok ⊢
    by_cases hz : (collect_test_cases casesOf cats (makedirs modelDir fs0)).length = 0
    · rw [if_pos hz]
      exact List.length_eq_zero.mp hz
    · rw [if_neg hz] at hok ⊢
      apply collect_eq_nil_of_drops
      intro c hc
      obtain ⟨P, S, recs, hps, hfiles, hmap, hnone⟩ :=
        runInteractive_growth inf modelDir (fileFor c)
          (collect_test_cases casesOf cats (makedirs modelDir fs0)) none
          (makedirs modelDir fs0)
      have hS : S = [] := hnone hok
      have hP : P = collect_test_cases casesOf cats (makedirs modelDir fs0) := by
        rw [hps, hS, List.append_nil]
      have hlenrecs : recs.length = ((casesOf c).drop
          (num_existing_result ((makedirs modelDir fs0).files (fileFor c)))).length := by
        have h1 := congrArg List.length hmap
        rw [List.length_map, List.length_map] at h1
        rw [h1, hP, collect_filter_mem casesOf (makedirs modelDir fs0) c cats hnd hc hpfx]
      rw [num_existing_eq_length, hfiles, List.length_append]
      apply List.drop_eq_nil_of_le
      rw [hlenrecs, num_existing_eq_length, List.length_drop]
      omega
  have hgen : ∀ Y : FS α, collect_test_cases casesOf cats Y = [] →
      (mainRunOnce inf2 casesOf cats modelDir Y).1.files = Y.files := by
    intro Y hY
    simp only [mainRunOnce]
    rw [collect_makedirs, hY]
    funext g
    exact files_makedirs modelDir Y g
  exact ⟨hcoll, hgen _ hcoll⟩

theorem resume_idempotent_witness :
    (mainRunOnce demoInfOk demoCasesOf ["simple"] "m" (emptyFS : FS Unit)).2 = none ∧
    (collect_test_cases demoCasesOf ["simple"]
        (mainRunOnce demoInfOk demoCasesOf ["simple"] "m" emptyFS).1 = [] ∧
      (mainRunOnce demoInfOk demoCasesOf ["simple"] "m"
          (mainRunOnce demoInfOk demoCasesOf ["simple"] "m" emptyFS).1).1.files
        = (mainRunOnce demoInfOk demoCasesOf ["simple"] "m" emptyFS).1.files) :=
  ⟨rfl,
   resume_is_idempotent demoInfOk demoInfOk demoCasesOf ["simple"] "m" emptyFS
     (by decide) (by decide) rfl⟩
